import Mathlib

/-!
Verification development for the mcp-metatool proxy/bridge/execution subsystem.

The Go source is shallowly embedded: pure functions become Lean functions,
the Starlark interpreter and other external collaborators are abstracted as
explicit oracles or modelled on the fragment the code exercises, and Go maps
are modelled as association lists (assignments overwrite by key).
-/

namespace Metatool

/-- Opaque carrier for a Go `float64`: the conversion layer never computes
with floats, it only passes them through, so the payload is modelled as the
raw bit pattern. -/
structure Float64 where
  bits : Nat
deriving DecidableEq, Repr

/-- A host (Go) value of the kinds crossing the sandbox boundary:
`interface{}` values built from nil, bool, int, int64, float64, string,
`[]interface{}` and `map[string]interface{}`.  `vunsupported` stands for any
other dynamic type (channels, functions, ...), carrying its `%T` rendering. -/
inductive GoValue where
  | vnil
  | vbool (b : Bool)
  | vint (n : Int)
  | vint64 (n : Int)
  | vfloat (f : Float64)
  | vstring (s : String)
  | vslice (xs : List GoValue)
  | vmap (entries : List (String × GoValue))
  | vunsupported (descr : String)

/-- A Starlark value of the kinds the bridge manipulates.  `other` stands for
any further Starlark value (tuples, sets, functions, namespace objects, ...)
carrying its `String()` rendering, which is all the conversion layer reads
from it. -/
inductive SValue where
  | none
  | bool (b : Bool)
  | int (n : Int)
  | float (f : Float64)
  | str (s : String)
  | list (xs : List SValue)
  | dict (entries : List (SValue × SValue))
  | other (repr : String)

mutual

/-- Starlark value equality (`starlark.Equal`) on the embedded fragment,
used by `Dict.SetKey` to decide whether a key is already present. -/
def SValue.beq : SValue → SValue → Bool
  | .none, .none => true
  | .bool a, .bool b => a == b
  | .int a, .int b => a == b
  | .float a, .float b => a == b
  | .str a, .str b => a == b
  | .list a, .list b => SValue.beqList a b
  | .dict a, .dict b => SValue.beqPairs a b
  | .other a, .other b => a == b
  | _, _ => false

/-- Elementwise equality of Starlark lists. -/
def SValue.beqList : List SValue → List SValue → Bool
  | [], [] => true
  | a :: as, b :: bs => SValue.beq a b && SValue.beqList as bs
  | _, _ => false

/-- Entrywise equality of Starlark dict entry lists. -/
def SValue.beqPairs : List (SValue × SValue) → List (SValue × SValue) → Bool
  | [], [] => true
  | (ka, va) :: as, (kb, vb) :: bs =>
    SValue.beq ka kb && SValue.beq va vb && SValue.beqPairs as bs
  | _, _ => false

end

/-- Go map assignment `m[k] = v` on a string-keyed map modelled as an
association list: overwrite the entry if the key is present, otherwise
append. -/
def assocSet {α : Type} (m : List (String × α)) (k : String) (v : α) :
    List (String × α) :=
  match m with
  | [] => [(k, v)]
  | (k', v') :: rest =>
    if k' = k then (k, v) :: rest else (k', v') :: assocSet rest k v

/-- Go map read `m[k]` (without the zero-value default). -/
def assocGet {α : Type} : List (String × α) → String → Option α
  | [], _ => none
  | (k', v) :: rest, k => if k' = k then some v else assocGet rest k

/-- Go map assignment on a `map[string]interface{}`. -/
def mapInsert (m : List (String × GoValue)) (k : String) (v : GoValue) :
    List (String × GoValue) :=
  assocSet m k v

/-- `starlark.Dict.SetKey`: replace the value if the key is present (keeping
its position), otherwise append the new entry. -/
def dictSetKey (d : List (SValue × SValue)) (k v : SValue) :
    List (SValue × SValue) :=
  match d with
  | [] => [(k, v)]
  | (k', v') :: rest =>
    if SValue.beq k' k then (k, v) :: rest else (k', v') :: dictSetKey rest k v

mutual

/-- `GoToStarlarkValue` from `convert.go`: converts a Go value to a Starlark
value; unsupported dynamic types yield an `unsupported type` error. -/
def GoToStarlarkValue : GoValue → Except String SValue
  | .vnil => .ok .none
  | .vbool b => .ok (.bool b)
  | .vint n => .ok (.int n)
  | .vint64 n => .ok (.int n)
  | .vfloat f => .ok (.float f)
  | .vstring s => .ok (.str s)
  | .vslice xs =>
    match goListToStarlark xs with
    | .error e => .error e
    | .ok ys => .ok (.list ys)
  | .vmap entries =>
    match goMapToStarlark [] entries with
    | .error e => .error e
    | .ok d => .ok (.dict d)
  | .vunsupported descr => .error ("unsupported type: " ++ descr)

/-- Elementwise conversion of a `[]interface{}`, stopping at the first
failing element (the Go loop returns on the first error). -/
def goListToStarlark : List GoValue → Except String (List SValue)
  | [] => .ok []
  | x :: xs =>
    match GoToStarlarkValue x with
    | .error e => .error e
    | .ok y =>
      match goListToStarlark xs with
      | .error e => .error e
      | .ok ys => .ok (y :: ys)

/-- Entrywise conversion of a `map[string]interface{}` into a Starlark dict:
each entry is `SetKey`ed into the dict built so far (so a later entry with
the same key overwrites an earlier one, as in Go), stopping at the first
failing value. -/
def goMapToStarlark (acc : List (SValue × SValue)) :
    List (String × GoValue) → Except String (List (SValue × SValue))
  | [] => .ok acc
  | (k, v) :: rest =>
    match GoToStarlarkValue v with
    | .error e => .error e
    | .ok sv => goMapToStarlark (dictSetKey acc (.str k) sv) rest

end

/-- Signed 64-bit range test used by `starlark.Int.Int64`. -/
def fitsInt64 (n : Int) : Bool :=
  (-(2 ^ 63) ≤ n) && (n < 2 ^ 63)

mutual

/-- `StarlarkToGoValue` from `convert.go`: converts a Starlark value back to
a Go value.  Integers outside the signed 64-bit range fall back to their
decimal string, non-string dict keys are silently skipped, and any other
value type falls back to its `String()` rendering. -/
def StarlarkToGoValue : SValue → Except String GoValue
  | .none => .ok .vnil
  | .bool b => .ok (.vbool b)
  | .int n =>
    if fitsInt64 n then .ok (.vint64 n) else .ok (.vstring (toString n))
  | .float f => .ok (.vfloat f)
  | .str s => .ok (.vstring s)
  | .list xs =>
    match starlarkListToGo xs with
    | .error e => .error e
    | .ok ys => .ok (.vslice ys)
  | .dict entries =>
    match starlarkDictToGo [] entries with
    | .error e => .error e
    | .ok m => .ok (.vmap m)
  | .other repr => .ok (.vstring repr)

/-- Elementwise conversion of a Starlark list. -/
def starlarkListToGo : List SValue → Except String (List GoValue)
  | [] => .ok []
  | x :: xs =>
    match StarlarkToGoValue x with
    | .error e => .error e
    | .ok y =>
      match starlarkListToGo xs with
      | .error e => .error e
      | .ok ys => .ok (y :: ys)

/-- Entrywise conversion of a Starlark dict into a Go map: entries whose key
is not a Starlark string are skipped (`continue` in the source); surviving
entries are assigned into the map in iteration order (a later duplicate key
overwrites an earlier one, as Go map assignment does). -/
def starlarkDictToGo (acc : List (String × GoValue)) :
    List (SValue × SValue) → Except String (List (String × GoValue))
  | [] => .ok acc
  | (k, v) :: rest =>
    match k with
    | .str s =>
      match StarlarkToGoValue v with
      | .error e => .error e
      | .ok gv => starlarkDictToGo (mapInsert acc s gv) rest
    | _ => starlarkDictToGo acc rest

end

/-! ### Capability bridge (`bridge.go`) -/

/-- The fields of an `mcp.Tool` record the bridge reads. -/
structure McpTool where
  name : String
  description : String
deriving DecidableEq, Repr

/-- One piece of remote output content: a `*mcp.TextContent`, or any other
content type carrying its `%v` rendering. -/
inductive McpContent where
  | text (s : String)
  | otherContent (repr : String)
deriving DecidableEq, Repr

/-- The fields of an `mcp.CallToolResult` the bridge reads. -/
structure CallToolResult where
  content : List McpContent
  structuredContent : Option GoValue

/-- The record of one forwarded call into the connection manager:
(server name, tool name, argument map) as handed to `CallTool`. -/
structure CallRecord where
  serverName : String
  toolName : String
  arguments : List (String × GoValue)

/-- The connection manager's `CallTool`, abstracted as an oracle: the bridge
only forwards to it and wraps its answer. -/
def ProxyCallOracle : Type :=
  String → String → List (String × GoValue) → Except String CallToolResult

/-- `ServerNamespace` from `bridge.go`: a server's tools projected as a
Starlark object.  The `proxyManager` reference is supplied at call time. -/
structure ServerNamespace where
  serverName : String
  tools : List (String × McpTool)

/-- `ToolFunction` from `bridge.go`: the immutable binding a namespace's
attribute lookup returns. -/
structure ToolFunction where
  serverName : String
  toolName : String
  tool : McpTool

/-- `ServerNamespace.Attr`: look the tool up by name; unknown names fail
with a no-such-attribute error. -/
def ServerNamespace.attr (ns : ServerNamespace) (name : String) :
    Except String ToolFunction :=
  match assocGet ns.tools name with
  | Option.none =>
    .error ("server '" ++ ns.serverName ++ "' has no tool '" ++ name ++ "'")
  | some tool => .ok ⟨ns.serverName, name, tool⟩

/-- The keyword-argument loop of `CallInternal`: each keyword tuple must
have exactly two parts with a string key; values are converted and assigned
into the accumulated parameter map. -/
def buildKwargParams (acc : List (String × GoValue)) :
    List (List SValue) → Except String (List (String × GoValue))
  | [] => .ok acc
  | kw :: rest =>
    match kw with
    | [k, v] =>
      match k with
      | .str key =>
        match StarlarkToGoValue v with
        | .error e => .error ("failed to convert keyword argument: " ++ e)
        | .ok gv => buildKwargParams (mapInsert acc key gv) rest
      | _ => .error "keyword argument key must be string"
    | _ => .error "invalid keyword argument"

/-- The argument-shape analysis of `CallInternal`: no arguments yield an
empty map; one positional dict is converted; keyword arguments are merged;
every other shape is an error. -/
def convertCallArgs (args : List SValue) (kwargs : List (List SValue)) :
    Except String (List (String × GoValue)) :=
  match args, kwargs with
  | [], [] => .ok []
  | [a], [] =>
    match a with
    | .dict d =>
      match StarlarkToGoValue (.dict d) with
      | .error e => .error ("failed to convert arguments: " ++ e)
      | .ok (.vmap m) => .ok m
      | .ok _ => .error "argument must be a dict/map"
    | _ => .error "single argument must be a dict"
  | [], _ :: _ => buildKwargParams [] kwargs
  | _, _ => .error "tool functions accept either a single dict argument or keyword arguments"

/-- The result dict `CallInternal` hands back to the sandbox: a `content`
list of string-rendered pieces when the remote result carries any, and a
`structured` entry when the structured payload is present and converts. -/
def buildResultDict (r : CallToolResult) : SValue :=
  let d0 : List (SValue × SValue) := []
  let d1 :=
    if r.content.length > 0 then
      dictSetKey d0 (.str "content")
        (.list (r.content.map fun c =>
          match c with
          | .text s => .str s
          | .otherContent rep => .str rep))
    else d0
  let d2 :=
    match r.structuredContent with
    | Option.none => d1
    | some g =>
      match GoToStarlarkValue g with
      | .ok sv => dictSetKey d1 (.str "structured") sv
      | .error _ => d1
  .dict d2

/-- `ToolFunction.CallInternal` from `bridge.go`, also returning the list of
calls it forwarded to the connection manager (empty on an argument-shape or
conversion error, exactly one on a forwarded call). -/
def ToolFunction.callInternal (t : ToolFunction) (pm : ProxyCallOracle)
    (args : List SValue) (kwargs : List (List SValue)) :
    Except String SValue × List CallRecord :=
  match convertCallArgs args kwargs with
  | .error e => (.error e, [])
  | .ok params =>
    let made : CallRecord := ⟨t.serverName, t.toolName, params⟩
    match pm t.serverName t.toolName params with
    | .error e => (.error ("tool call failed: " ++ e), [made])
    | .ok r => (.ok (buildResultDict r), [made])

/-- The per-server tool map built inside `CreateServerNamespaces`:
`toolMap[tool.Name] = tool` in slice order. -/
def buildToolMap (acc : List (String × McpTool)) :
    List McpTool → List (String × McpTool)
  | [] => acc
  | tool :: rest => buildToolMap (assocSet acc tool.name tool) rest

/-- The loop of `CreateServerNamespaces`: `namespaces[serverName] =
namespace` over the `GetAllTools` snapshot. -/
def createNamespacesLoop (acc : List (String × ServerNamespace)) :
    List (String × List McpTool) → List (String × ServerNamespace)
  | [] => acc
  | (serverName, tools) :: rest =>
    createNamespacesLoop
      (assocSet acc serverName ⟨serverName, buildToolMap [] tools⟩) rest

/-- `CreateServerNamespaces` from `bridge.go`: one namespace per server in
the `GetAllTools` snapshot, keyed by the server name exactly as reported. -/
def CreateServerNamespaces (allTools : List (String × List McpTool)) :
    List (String × ServerNamespace) :=
  createNamespacesLoop [] allTools

/-! ### Execution engine (`executor.go`) -/

/-- Substring containment on character lists, the semantics of Go's
`strings.Contains(hay, needle)`. -/
def containsSub (hay needle : List Char) : Bool :=
  if needle.isPrefixOf hay then true
  else
    match hay with
    | [] => false
    | _ :: t => containsSub t needle

/-- `strings.Contains` on strings. -/
def strContains (hay needle : String) : Bool :=
  containsSub hay.data needle.data

/-- `isMultiLineCode`: a body containing a newline or the literal substring
`return` anywhere is treated as a full program. -/
def isMultiLineCode (code : String) : Bool :=
  strContains code "\n" || strContains code "return"

/-- `isBuiltinName`: the fixed exclusion list of common Starlark built-in
names. -/
def isBuiltinName (name : String) : Bool :=
  let builtins := ["True", "False", "None",
    "bool", "dict", "enumerate", "float", "getattr", "hasattr",
    "int", "len", "list", "max", "min", "print", "range",
    "repr", "reversed", "sorted", "str", "tuple", "type", "zip"]
  builtins.contains name

/-- A `starlark.StringDict`: names bound in a scope. -/
abbrev StringDict : Type := List (String × SValue)

/-- The loop of `filterUserGlobals`: drop any global whose name is bound in
the predeclared scope or is in the built-in exclusion list. -/
def filterUserGlobalsLoop (predeclared : StringDict) (acc : StringDict) :
    List (String × SValue) → StringDict
  | [] => acc
  | (name, value) :: rest =>
    if (assocGet predeclared name).isSome then
      filterUserGlobalsLoop predeclared acc rest
    else if isBuiltinName name then
      filterUserGlobalsLoop predeclared acc rest
    else
      filterUserGlobalsLoop predeclared (assocSet acc name value) rest

/-- `filterUserGlobals` from `executor.go`. -/
def filterUserGlobals (modGlobals predeclared : StringDict) : StringDict :=
  filterUserGlobalsLoop predeclared [] modGlobals

/-- The dict-building loop of `extractResultFromGlobals`. -/
def globalsToDict (acc : List (SValue × SValue)) :
    List (String × SValue) → List (SValue × SValue)
  | [] => acc
  | (k, v) :: rest => globalsToDict (dictSetKey acc (.str k) v) rest

/-- `extractResultFromGlobals`: the filtered user globals as a Starlark
dict, or `None` when none remain. -/
def extractResultFromGlobals (modGlobals predeclared : StringDict) : SValue :=
  let filteredGlobals := filterUserGlobals modGlobals predeclared
  if filteredGlobals.length = 0 then .none
  else .dict (globalsToDict [] filteredGlobals)

/-- `starlark.ExecFileOptions` abstracted as an oracle: a program body and a
predeclared scope yield the module globals, or an execution failure. -/
def ExecOracle : Type := String → StringDict → Except String StringDict

/-- `starlark.EvalOptions` abstracted as an oracle: an expression body and a
predeclared scope yield a value, or an evaluation failure. -/
def EvalOracle : Type := String → StringDict → Except String SValue

/-- `executeAsProgram` from `executor.go`: run the body as a program; an
explicit `result` global wins, otherwise the filtered globals are the
result. -/
def executeAsProgram (execFile : ExecOracle) (code : String)
    (predeclared : StringDict) : Except String SValue :=
  match execFile code predeclared with
  | .error e => .error ("Execution error: " ++ e)
  | .ok modGlobals =>
    match assocGet modGlobals "result" with
    | some resultVal => .ok resultVal
    | Option.none => .ok (extractResultFromGlobals modGlobals predeclared)

/-- `executeAsExpression` from `executor.go`. -/
def executeAsExpression (evalExpr : EvalOracle) (code : String)
    (predeclared : StringDict) : Except String SValue :=
  match evalExpr code predeclared with
  | .error e => .error ("Evaluation error: " ++ e)
  | .ok result => .ok result

/-- `executeCode` from `executor.go`: dispatch on the classification
heuristic. -/
def executeCode (execFile : ExecOracle) (evalExpr : EvalOracle)
    (code : String) (predeclared : StringDict) : Except String SValue :=
  if isMultiLineCode code then executeAsProgram execFile code predeclared
  else executeAsExpression evalExpr code predeclared

/-- The predeclared `starlark.Universe` of the embedded interpreter
(external `go.starlark.net` library); the claims below only depend on which
names it binds — in particular that `params` is not among them. -/
def starlarkUniverse : StringDict :=
  [("None", .none), ("True", .bool true), ("False", .bool false)] ++
  (["abs", "any", "all", "bool", "bytes", "chr", "dict", "dir",
    "enumerate", "fail", "float", "getattr", "hasattr", "hash", "int",
    "len", "list", "max", "min", "ord", "print", "range", "repr",
    "reversed", "set", "sorted", "str", "tuple", "type", "zip"].map
    fun n => (n, SValue.other ("<built-in function " ++ n ++ ">")))

/-- The result record of one execution (`Result` in `executor.go`): a
success value or a failure message, each present exactly when set. -/
structure ExecResult where
  result : Option GoValue
  error : Option String

/-- The parameter-conversion loop of `ExecuteWithProxy`: marshal each named
parameter into the `params` dict, failing on the first unsupported value. -/
def buildParamsDict (acc : List (SValue × SValue)) :
    List (String × GoValue) → Except String (List (SValue × SValue))
  | [] => .ok acc
  | (k, v) :: rest =>
    match GoToStarlarkValue v with
    | .error e => .error e
    | .ok sv => buildParamsDict (dictSetKey acc (.str k) sv) rest

/-- A `ServerNamespace` as the Starlark value entering the scope; the
claims below about the executor never call into it, so it is carried by its
`String()` rendering (its callable behavior is verified separately through
`ToolFunction.callInternal`). -/
def namespaceValue (ns : ServerNamespace) : SValue :=
  .other ("<" ++ ns.serverName ++ " server namespace>")

/-- The namespace-installation loop of `ExecuteWithProxy`:
`predeclared[name] = namespace` over the created namespaces. -/
def addNamespacesLoop (pre : StringDict) :
    List (String × ServerNamespace) → StringDict
  | [] => pre
  | (name, ns) :: rest =>
    addNamespacesLoop (assocSet pre name (namespaceValue ns)) rest

/-- The scope `ExecuteWithProxy` prepares before looking at `params`: a
copy of `starlark.Universe` plus the `time`, `math` and `json` modules. -/
def basePredeclared : StringDict :=
  assocSet (assocSet (assocSet starlarkUniverse
    "time" (.other "<module time>")) "math" (.other "<module math>"))
    "json" (.other "<module json>")

/-- The namespace-installation step of `ExecuteWithProxy`: with a proxy
manager, one namespace per connected server is added to the scope. -/
def withNamespaces (proxyTools : Option (List (String × List McpTool)))
    (pre : StringDict) : StringDict :=
  match proxyTools with
  | Option.none => pre
  | some allTools => addNamespacesLoop pre (CreateServerNamespaces allTools)

/-- The tail of `ExecuteWithProxy` after the scope is assembled: run the
code, convert the resulting value, and package either outcome as a
`Result` with a nil Go error. -/
def runAndConvert (execFile : ExecOracle) (evalExpr : EvalOracle)
    (code : String) (pre : StringDict) : ExecResult × Option String :=
  match executeCode execFile evalExpr code pre with
  | .error e => (⟨Option.none, some e⟩, Option.none)
  | .ok result =>
    match StarlarkToGoValue result with
    | .error e =>
      (⟨Option.none, some ("Result conversion error: " ++ e)⟩, Option.none)
    | .ok goResult => (⟨some goResult, Option.none⟩, Option.none)

/-- `ExecuteWithProxy` from `executor.go`, with the interpreter abstracted
as the two oracles.  Mirrors the Go signature `(*Result, error)`: the second
component is the Go error, `none` on every path. -/
def ExecuteWithProxy (execFile : ExecOracle) (evalExpr : EvalOracle)
    (code : String) (params : Option (List (String × GoValue)))
    (proxyTools : Option (List (String × List McpTool))) :
    ExecResult × Option String :=
  match params with
  | Option.none =>
    runAndConvert execFile evalExpr code (withNamespaces proxyTools basePredeclared)
  | some ps =>
    match buildParamsDict [] ps with
    | .error e =>
      (⟨Option.none, some ("Parameter conversion error: " ++ e)⟩, Option.none)
    | .ok paramsDict =>
      runAndConvert execFile evalExpr code
        (withNamespaces proxyTools (assocSet basePredeclared "params" (.dict paramsDict)))

/-- `Execute` from `executor.go`: `ExecuteWithProxy` with no proxy
manager. -/
def Execute (execFile : ExecOracle) (evalExpr : EvalOracle) (code : String)
    (params : Option (List (String × GoValue))) : ExecResult × Option String :=
  ExecuteWithProxy execFile evalExpr code params Option.none

/-! ### Schema validation (`validation/schema.go`) -/

/-- `ValidationError` from `validation/schema.go`: the structured error
value; `type_` is its kind field (`"SchemaError"` or `"ValidationError"`). -/
structure VError where
  type_ : String
  message : String
  details : List (String × GoValue)

mutual

/-- Whether `json.Marshal` fails on a value: only unsupported dynamic types
(channels, functions, ...) are unmarshalable. -/
def jsonMarshalFails : GoValue → Bool
  | .vunsupported _ => true
  | .vslice xs => jsonMarshalFailsList xs
  | .vmap m => jsonMarshalFailsMap m
  | _ => false

/-- Elementwise marshal-failure check. -/
def jsonMarshalFailsList : List GoValue → Bool
  | [] => false
  | x :: xs => jsonMarshalFails x || jsonMarshalFailsList xs

/-- Entrywise marshal-failure check. -/
def jsonMarshalFailsMap : List (String × GoValue) → Bool
  | [] => false
  | (_, v) :: rest => jsonMarshalFails v || jsonMarshalFailsMap rest

end

/-- The schema record the external `jsonschema` library unmarshals into,
restricted to the fields this code base's schemas exercise. -/
structure JSchema where
  type_ : Option String
  properties : List (String × JSchema)
  required : List String

/-- The "required" field must unmarshal from an array of strings. -/
def unmarshalRequired : List GoValue → Except String (List String)
  | [] => .ok []
  | .vstring s :: rest =>
    match unmarshalRequired rest with
    | .error e => .error e
    | .ok ss => .ok (s :: ss)
  | _ :: _ => .error "cannot unmarshal required entry into string"

mutual

/-- Models `json.Unmarshal` of a schema document into the external
library's `jsonschema.Schema`: a field of the wrong JSON shape (for example
`properties` bound to a string) makes unmarshaling fail. -/
def unmarshalSchemaVal : GoValue → Except String JSchema
  | .vmap entries => unmarshalSchemaFields ⟨Option.none, [], []⟩ entries
  | _ => .error "cannot unmarshal value into jsonschema.Schema"

/-- Field-by-field unmarshaling of a schema object; unknown fields are
ignored as `encoding/json` does. -/
def unmarshalSchemaFields (acc : JSchema) :
    List (String × GoValue) → Except String JSchema
  | [] => .ok acc
  | (k, v) :: rest =>
    if k = "type" then
      match v with
      | .vstring s => unmarshalSchemaFields { acc with type_ := some s } rest
      | _ => .error "cannot unmarshal type field into string"
    else if k = "properties" then
      match v with
      | .vmap pm =>
        match unmarshalProperties pm with
        | .error e => .error e
        | .ok ps => unmarshalSchemaFields { acc with properties := ps } rest
      | _ => .error "cannot unmarshal properties field into map of schemas"
    else if k = "required" then
      match v with
      | .vslice xs =>
        match unmarshalRequired xs with
        | .error e => .error e
        | .ok ss => unmarshalSchemaFields { acc with required := ss } rest
      | _ => .error "cannot unmarshal required field into string array"
    else unmarshalSchemaFields acc rest

/-- Entrywise unmarshaling of a `properties` object. -/
def unmarshalProperties :
    List (String × GoValue) → Except String (List (String × JSchema))
  | [] => .ok []
  | (k, v) :: rest =>
    match unmarshalSchemaVal v with
    | .error e => .error e
    | .ok s =>
      match unmarshalProperties rest with
      | .error e => .error e
      | .ok ps => .ok ((k, s) :: ps)

end

/-- JSON-Schema `type` keyword agreement on host values. -/
def typeMatches (t : String) (v : GoValue) : Bool :=
  match v with
  | .vmap _ => t = "object"
  | .vstring _ => t = "string"
  | .vint _ => t = "number" || t = "integer"
  | .vint64 _ => t = "number" || t = "integer"
  | .vfloat _ => t = "number"
  | .vslice _ => t = "array"
  | .vbool _ => t = "boolean"
  | .vnil => t = "null"
  | .vunsupported _ => false

mutual

/-- Models the external library's `Resolved.Validate` on the schema
fragment used here: `type` agreement, `required` membership, and recursive
`properties` checks. -/
def validateSchema : JSchema → GoValue → Bool
  | ⟨t, props, req⟩, v =>
    (match t with
     | Option.none => true
     | some tn => typeMatches tn v) &&
    (match v with
     | .vmap m =>
       req.all (fun r => (assocGet m r).isSome) && validateProperties props m
     | _ => true)

/-- Per-property validation: a declared property is checked only when the
instance binds it. -/
def validateProperties : List (String × JSchema) → List (String × GoValue) → Bool
  | [], _ => true
  | (k, sub) :: rest, m =>
    (match assocGet m k with
     | Option.none => true
     | some pv => validateSchema sub pv) && validateProperties rest m

end

/-- `ValidateParams` from `validation/schema.go`: an absent/empty schema
accepts anything; a schema document that fails to marshal, unmarshal or
resolve is a `SchemaError`; a well-formed schema with non-conforming
arguments is a `ValidationError`; `none` is success. -/
def ValidateParams (schema params : List (String × GoValue)) : Option VError :=
  if schema.length = 0 then Option.none
  else if jsonMarshalFailsMap schema then
    some ⟨"SchemaError", "Failed to marshal schema", []⟩
  else
    match unmarshalSchemaVal (.vmap schema) with
    | .error e =>
      some ⟨"SchemaError", "Invalid JSON schema definition",
        [("error", .vstring e)]⟩
    | .ok schemaObj =>
      if validateSchema schemaObj (.vmap params) then Option.none
      else
        some ⟨"ValidationError", "Parameter validation failed",
          [("schema", .vmap schema), ("providedParams", .vmap params)]⟩

/-! ### Configuration and exposure filtering (`config.go`, `tools/proxied.go`) -/

/-- The suffix search for a `*`: try the rest of the pattern against every
suffix of the remaining text. -/
def starLoop (f : List Char → Bool) : List Char → Bool
  | [] => f []
  | c :: cs => f (c :: cs) || starLoop f cs

/-- Modelled from the spec: the glob matcher behind `ShouldIncludeTool`
(its definition is absent from the src snapshot; only its callers, tests and
the README are present).  A `*` stands for any sequence of characters,
anchored at both ends; all other characters match literally. -/
def globMatch : List Char → List Char → Bool
  | [], s => s.isEmpty
  | p :: ps, s =>
    if p = '*' then starLoop (fun ss => globMatch ps ss) s
    else
      match s with
      | [] => false
      | c :: cs => p = c && globMatch ps cs

/-- Pattern match on strings. -/
def matchesPattern (pattern name : String) : Bool :=
  globMatch pattern.data name.data

/-- `MCPServerConfig` from `config.go`. The `allowedTools` / `hiddenTools`
fields are modelled from the spec: the src snapshot of `config.go` predates
them (only `tools/proxied.go`, the README and the tests reference them). -/
structure MCPServerConfig where
  command : String
  args : List String
  env : List (String × String)
  hidden : Bool
  allowedTools : Option (List String)
  hiddenTools : Option (List String)

/-- Modelled from the spec: a server declares an allow-list or a deny-list
of patterns, never both — a configuration declaring both is invalid. -/
def MCPServerConfig.filterListsValid (c : MCPServerConfig) : Bool :=
  !(c.allowedTools.isSome && c.hiddenTools.isSome)

/-- Modelled from the spec: `ShouldIncludeTool` — with an allow-list, a
capability is exposed exactly when some pattern admits it; with a deny-list,
exactly when no pattern matches it; with neither, always. -/
def MCPServerConfig.shouldIncludeTool (c : MCPServerConfig)
    (toolName : String) : Bool :=
  match c.allowedTools with
  | some allowed => allowed.any (fun p => matchesPattern p toolName)
  | Option.none =>
    match c.hiddenTools with
    | some hiddenPats => !(hiddenPats.any (fun p => matchesPattern p toolName))
    | Option.none => true

/-- The inner loop of `RegisterProxiedTools`: the prefixed names registered
for one visible, configured server. -/
def registerServerTools (serverName : String) (serverConfig : MCPServerConfig) :
    List McpTool → List String
  | [] => []
  | tool :: rest =>
    if serverConfig.shouldIncludeTool tool.name then
      (serverName ++ "__" ++ tool.name) :: registerServerTools serverName serverConfig rest
    else registerServerTools serverName serverConfig rest

/-- The outer loop of `RegisterProxiedTools` over the `GetAllTools`
snapshot: servers without a configuration entry and servers marked hidden
are skipped. -/
def registerProxiedLoop (mcpServers : List (String × MCPServerConfig)) :
    List (String × List McpTool) → List String
  | [] => []
  | (serverName, tools) :: rest =>
    (match assocGet mcpServers serverName with
     | Option.none => []
     | some serverConfig =>
       if serverConfig.hidden then []
       else registerServerTools serverName serverConfig tools) ++
    registerProxiedLoop mcpServers rest

/-- `RegisterProxiedTools` from `tools/proxied.go`, as the list of
agent-facing tool names it registers; `hideProxied` is the process-wide
`MCP_METATOOL_HIDE_PROXIED_TOOLS` switch. -/
def RegisterProxiedTools (hideProxied : Bool)
    (mcpServers : List (String × MCPServerConfig))
    (allTools : List (String × List McpTool)) : List String :=
  if hideProxied then []
  else registerProxiedLoop mcpServers allTools

/-! ### Connection manager snapshot (`proxy/manager.go`) -/

/-- The manager's internal tool registry: per server, the slice of
`*mcp.Tool` pointers, modelled as heap addresses. -/
abbrev ManagerTools : Type := List (String × List Nat)

/-- The heap of `mcp.Tool` records the pointers refer to. -/
abbrev ToolHeap : Type := Nat → McpTool

/-- Mutation of one tool record through a pointer. -/
def heapUpdate (h : ToolHeap) (a : Nat) (t : McpTool) : ToolHeap :=
  fun a' => if a' = a then t else h a'

/-- Go's `copy` of a `[]*mcp.Tool` slice: a fresh slice holding the same
pointers. -/
def copySlice : List Nat → List Nat
  | [] => []
  | a :: rest => a :: copySlice rest

/-- The loop of `Manager.GetAllTools`: `result[serverName] =
make(...); copy(result[serverName], tools)` over the internal registry. -/
def getAllToolsLoop (acc : ManagerTools) : ManagerTools → ManagerTools
  | [] => acc
  | (serverName, tools) :: rest =>
    getAllToolsLoop (assocSet acc serverName (copySlice tools)) rest

/-- `Manager.GetAllTools` from `proxy/manager.go`: a fresh map of freshly
copied slices over the same tool-record pointers. -/
def managerGetAllTools (m : ManagerTools) : ManagerTools :=
  getAllToolsLoop [] m

/-- What the manager (or a holder of the returned map) observes: every tool
record dereferenced through the current heap. -/
def managerView (m : ManagerTools) (h : ToolHeap) :
    List (String × List McpTool) :=
  m.map fun st => (st.1, st.2.map h)

/-- The record pointers reachable from a tools map. -/
def reachableAddrs (m : ManagerTools) : List Nat :=
  m.flatMap fun st => st.2

/-! ### Round-trip equality (`convert_test.go`'s `equalValues`) -/

/-- The fallback `a == b` of `equalValues`: Go interface equality — equal
dynamic types with equal values (float payloads are compared by
representation; IEEE comparison is outside the embedding). -/
def goPrimEq : GoValue → GoValue → Bool
  | .vint n, .vint m => n == m
  | .vint64 n, .vint64 m => n == m
  | .vbool a, .vbool b => a == b
  | .vfloat a, .vfloat b => a == b
  | .vstring a, .vstring b => a == b
  | .vunsupported a, .vunsupported b => a == b
  | _, _ => false

mutual

/-- `equalValues` from `convert_test.go`, the equality the round-trip
property is stated with: nil handling first, then the documented
`int`-vs-`int64` adjustment, then slices and maps structurally, then Go
interface equality. -/
def equalValues : GoValue → GoValue → Bool
  | .vnil, .vnil => true
  | .vnil, _ => false
  | _, .vnil => false
  | .vint n, .vint64 m => n == m
  | .vslice as, .vslice bs =>
    (as.length == bs.length) && equalValuesList as bs
  | .vslice _, _ => false
  | .vmap am, .vmap bm =>
    (am.length == bm.length) && equalValuesMap bm am
  | .vmap _, _ => false
  | a, b => goPrimEq a b

/-- Pointwise slice comparison (the source indexes after a length check). -/
def equalValuesList : List GoValue → List GoValue → Bool
  | [], [] => true
  | a :: as, b :: bs => equalValues a b && equalValuesList as bs
  | _, _ => false

/-- Per-key map comparison: each entry of the first map against the second
map's value at that key (a missing key reads as the nil interface). -/
def equalValuesMap (bm : List (String × GoValue)) :
    List (String × GoValue) → Bool
  | [] => true
  | (k, v) :: rest =>
    equalValues v ((assocGet bm k).getD .vnil) && equalValuesMap bm rest

end

mutual

/-- The supported host-value fragment of the round-trip claim, together
with Go's typing facts: `int` and `int64` are 64-bit, and map keys are
distinct. -/
def SupportedValue : GoValue → Bool
  | .vnil => true
  | .vbool _ => true
  | .vint n => fitsInt64 n
  | .vint64 n => fitsInt64 n
  | .vfloat _ => true
  | .vstring _ => true
  | .vslice xs => SupportedSlice xs
  | .vmap m => decide ((m.map Prod.fst).Nodup) && SupportedEntries m
  | .vunsupported _ => false

/-- Elementwise supportedness. -/
def SupportedSlice : List GoValue → Bool
  | [] => true
  | x :: xs => SupportedValue x && SupportedSlice xs

/-- Entrywise supportedness. -/
def SupportedEntries : List (String × GoValue) → Bool
  | [] => true
  | (_, v) :: rest => SupportedValue v && SupportedEntries rest

end

/-- A sandbox value that converts back to a host value test-equal to `v`. -/
def BackOk (v : GoValue) (sv : SValue) : Prop :=
  ∃ v', StarlarkToGoValue sv = .ok v' ∧ equalValues v v' = true

/-- Whether a Starlark value is a string. -/
def SValue.isStr : SValue → Bool
  | .str _ => true
  | _ => false

/-- An interpreter oracle with a fixed answer, used to instantiate the
engine theorems at concrete inputs. -/
def constExecOracle : ExecOracle := fun _ _ => .ok []

/-- An expression oracle with a fixed answer, used to instantiate the
engine theorems at concrete inputs. -/
def constEvalOracle : EvalOracle := fun _ _ => .ok .none

/-- An expression oracle with the name-resolution behavior of the real
interpreter on the body `params`: the value of the binding when bound, an
undefined-variable failure otherwise. -/
def lookupEvalOracle : EvalOracle := fun _ env =>
  match assocGet env "params" with
  | some v => .ok v
  | Option.none => .error "undefined: params"

/-- Whether a Starlark value is a dict. -/
def SValue.isDict : SValue → Bool
  | .dict _ => true
  | _ => false

/-- A concrete tool function for instantiating the bridge theorems. -/
def c6Tool : ToolFunction := ⟨"testserver", "echo", ⟨"echo", "Echo tool"⟩⟩

/-- A connection-manager oracle with a fixed mock answer. -/
def constProxyOracle : ProxyCallOracle := fun _ _ _ =>
  .ok ⟨[.text "mock response"], Option.none⟩

/-- The `GetAllTools` snapshot of C1's scenario: a manager reporting the
server `github-gohiring` with the discovered capability `get_me`. -/
def c1AllTools : List (String × List McpTool) :=
  [("github-gohiring", [⟨"get_me", "Get current user"⟩])]

/-- The schema of C7's validation scenario: an object requiring the string
property `name`. -/
def nameSchema : List (String × GoValue) :=
  [("type", .vstring "object"),
   ("properties", .vmap [("name", .vmap [("type", .vstring "string")])]),
   ("required", .vslice [.vstring "name"])]

/-- A malformed schema document: `properties` bound to a string instead of
an object (the shape the validation tests use). -/
def malformedSchema : List (String × GoValue) :=
  [("type", .vstring "object"),
   ("properties", .vstring "this should be an object, not a string")]

/-- The spec's glob semantics, relationally: a literal character matches
itself, and `*` stands for any sequence of characters; the whole pattern is
anchored at both ends. -/
inductive GlobSem : List Char → List Char → Prop where
  | nil : GlobSem [] []
  | lit {c : Char} {ps ss : List Char} :
      c ≠ '*' → GlobSem ps ss → GlobSem (c :: ps) (c :: ss)
  | star {ps pre ss : List Char} :
      GlobSem ps ss → GlobSem ('*' :: ps) (pre ++ ss)

/-- An allow-list configuration for C8's examples. -/
def allowCfg : MCPServerConfig :=
  ⟨"cmd", [], [], false, some ["create_*"], Option.none⟩

/-- A deny-list configuration for C8's examples. -/
def denyCfg : MCPServerConfig :=
  ⟨"cmd", [], [], false, Option.none, some ["admin_*"]⟩

/-- A program oracle returning the module globals of the body
`x = 1\ny = 2`. -/
def c2Exec : ExecOracle := fun _ _ => .ok [("x", .int 1), ("y", .int 2)]

/-! ## Helper lemmas -/

/-- `strings.Contains` holds exactly when the needle occurs as a contiguous
substring, anywhere in the haystack. -/
theorem containsSub_iff (needle : List Char) (hay : List Char) :
    containsSub hay needle = true ↔ ∃ pre post, hay = pre ++ needle ++ post := by
  induction hay with
  | nil =>
    unfold containsSub
    rcases needle with _ | ⟨c, cs⟩ <;> simp [List.isPrefixOf]
  | cons h t ih =>
    unfold containsSub
    by_cases hp : needle.isPrefixOf (h :: t)
    · simp only [hp, if_true, true_iff]
      rcases List.isPrefixOf_iff_prefix.mp hp with ⟨rest, hrest⟩
      exact ⟨[], rest, by simp [hrest]⟩
    · simp only [hp, if_false, Bool.false_eq_true]
      rw [ih]
      constructor
      · rintro ⟨pre, post, hdecomp⟩
        exact ⟨h :: pre, post, by simp [hdecomp]⟩
      · rintro ⟨pre, post, hdecomp⟩
        rcases pre with _ | ⟨p, ps⟩
        · exfalso
          apply hp
          apply List.isPrefixOf_iff_prefix.mpr
          exact ⟨post, by simpa using hdecomp.symm⟩
        · simp only [List.cons_append, List.cons.injEq] at hdecomp
          exact ⟨ps, post, hdecomp.2⟩

/-! ## Claims -/

/-- C5: the engine classifies a body as a full program exactly when the
body contains a newline character or the literal substring `return`
anywhere; every other body is dispatched to single-expression
evaluation.  Holds for every input string. -/
theorem executeCode_classification (execFile : ExecOracle)
    (evalExpr : EvalOracle) (code : String) (predeclared : StringDict) :
    (isMultiLineCode code = true ↔
      (∃ pre post, code.data = pre ++ "\n".data ++ post) ∨
      (∃ pre post, code.data = pre ++ "return".data ++ post)) ∧
    (isMultiLineCode code = true →
      executeCode execFile evalExpr code predeclared =
        executeAsProgram execFile code predeclared) ∧
    (isMultiLineCode code = false →
      executeCode execFile evalExpr code predeclared =
        executeAsExpression evalExpr code predeclared) := by
  refine ⟨?_, ?_, ?_⟩
  · rw [isMultiLineCode, Bool.or_eq_true, strContains, strContains,
      containsSub_iff, containsSub_iff]
  · intro h
    simp [executeCode, h]
  · intro h
    simp [executeCode, h]

/-- C5 witness: a two-line body is dispatched to program execution, a
one-line body without `return` to expression evaluation. -/
theorem executeCode_classification_witness :
    executeCode constExecOracle constEvalOracle "x = 1\ny = 2" [] =
      executeAsProgram constExecOracle "x = 1\ny = 2" [] ∧
    executeCode constExecOracle constEvalOracle "2 + 3" [] =
      executeAsExpression constEvalOracle "2 + 3" [] :=
  ⟨(executeCode_classification constExecOracle constEvalOracle
      "x = 1\ny = 2" []).2.1 (by decide),
   (executeCode_classification constExecOracle constEvalOracle
      "2 + 3" []).2.2 (by decide)⟩

/-- A string starting with a nonempty literal prefix is nonempty. -/
theorem prefixed_ne_empty (s t : String) (h : 0 < s.length) : s ++ t ≠ "" := by
  intro hc
  have hlen := congrArg String.length hc
  simp only [String.length_append, String.length_empty] at hlen
  omega

/-- Every failure `executeCode` reports carries a nonempty message (it is
prefixed with `Execution error:` or `Evaluation error:`). -/
theorem executeCode_error_nonempty (execFile : ExecOracle)
    (evalExpr : EvalOracle) (code : String) (pre : StringDict) (e : String)
    (h : executeCode execFile evalExpr code pre = .error e) : e ≠ "" := by
  unfold executeCode executeAsProgram executeAsExpression at h
  split at h
  · split at h
    · rename_i e' _
      cases h
      exact prefixed_ne_empty "Execution error: " e' (by decide)
    · split at h <;> cases h
  · split at h
    · rename_i e' _
      cases h
      exact prefixed_ne_empty "Evaluation error: " e' (by decide)
    · cases h

/-- The run-and-convert tail of the engine returns a nil Go error and a
result that is either a success value or a nonempty error message. -/
theorem runAndConvert_shape (execFile : ExecOracle) (evalExpr : EvalOracle)
    (code : String) (pre : StringDict) :
    (runAndConvert execFile evalExpr code pre).2 = Option.none ∧
    ((∃ v, (runAndConvert execFile evalExpr code pre).1.result = some v ∧
        (runAndConvert execFile evalExpr code pre).1.error = Option.none) ∨
     (∃ m, (runAndConvert execFile evalExpr code pre).1.error = some m ∧
        m ≠ "" ∧
        (runAndConvert execFile evalExpr code pre).1.result = Option.none)) := by
  unfold runAndConvert
  split
  · rename_i e he
    exact ⟨rfl, Or.inr ⟨e, rfl,
      executeCode_error_nonempty _ _ _ _ _ he, rfl⟩⟩
  · split
    · rename_i e _
      refine ⟨rfl, Or.inr ⟨"Result conversion error: " ++ e, rfl, ?_, rfl⟩⟩
      exact prefixed_ne_empty "Result conversion error: " e (by decide)
    · exact ⟨rfl, Or.inl ⟨_, rfl, rfl⟩⟩

/-- C3: `ExecuteWithProxy` (and hence `Execute`) never returns a Go error:
every failure — parameter conversion, syntax or runtime evaluation, result
conversion — is delivered in the result's `Error` field, and the result
carries either a success value or a nonempty error message, never both. -/
theorem executeWithProxy_never_errs (execFile : ExecOracle)
    (evalExpr : EvalOracle) (code : String)
    (params : Option (List (String × GoValue)))
    (proxyTools : Option (List (String × List McpTool))) :
    (ExecuteWithProxy execFile evalExpr code params proxyTools).2 =
      Option.none ∧
    ((∃ v,
        (ExecuteWithProxy execFile evalExpr code params proxyTools).1.result
          = some v ∧
        (ExecuteWithProxy execFile evalExpr code params proxyTools).1.error
          = Option.none) ∨
     (∃ m,
        (ExecuteWithProxy execFile evalExpr code params proxyTools).1.error
          = some m ∧ m ≠ "" ∧
        (ExecuteWithProxy execFile evalExpr code params proxyTools).1.result
          = Option.none)) := by
  unfold ExecuteWithProxy
  rcases params with _ | ps
  · exact runAndConvert_shape execFile evalExpr code _
  · dsimp only
    rcases hb : buildParamsDict [] ps with e | paramsDict
    · refine ⟨rfl, Or.inr ⟨"Parameter conversion error: " ++ e, rfl, ?_, rfl⟩⟩
      exact prefixed_ne_empty "Parameter conversion error: " e (by decide)
    · exact runAndConvert_shape execFile evalExpr code _

/-- C10: with a nil parameter map, `params` is not bound in the scope, so
the body `params` fails with an undefined-variable evaluation error
captured in the result's `Error` field; with a non-nil empty map, `params`
is bound to an empty mapping and the same body succeeds with the empty
map.  The two oracle hypotheses state the interpreter's name-resolution
contract for the expression `params`. -/
theorem execute_params_nil_vs_empty (execFile : ExecOracle)
    (evalExpr : EvalOracle)
    (hfound : ∀ env v, assocGet env "params" = some v →
      evalExpr "params" env = .ok v)
    (hmissing : ∀ env, assocGet env "params" = Option.none →
      evalExpr "params" env = .error "undefined: params") :
    (ExecuteWithProxy execFile evalExpr "params" Option.none Option.none).1.error
      = some "Evaluation error: undefined: params" ∧
    (ExecuteWithProxy execFile evalExpr "params" Option.none Option.none).1.result
      = Option.none ∧
    (ExecuteWithProxy execFile evalExpr "params" (some []) Option.none).1.result
      = some (.vmap []) ∧
    (ExecuteWithProxy execFile evalExpr "params" (some []) Option.none).1.error
      = Option.none := by
  have hcls : isMultiLineCode "params" = false := by decide
  have hnil : assocGet basePredeclared "params" = Option.none := rfl
  have henv : assocGet (assocSet basePredeclared "params" (.dict []))
      "params" = some (.dict []) := rfl
  have hmsg : "Evaluation error: " ++ "undefined: params"
      = "Evaluation error: undefined: params" := by decide
  have e2 : ∀ pre, executeCode execFile evalExpr "params" pre =
      executeAsExpression evalExpr "params" pre := by
    intro pre
    unfold executeCode
    rw [hcls]
    simp
  constructor
  · show (runAndConvert execFile evalExpr "params" basePredeclared).1.error = _
    unfold runAndConvert
    rw [e2]
    unfold executeAsExpression
    rw [hmissing _ hnil]
    dsimp only
    rw [hmsg]
  constructor
  · show (runAndConvert execFile evalExpr "params" basePredeclared).1.result = _
    unfold runAndConvert
    rw [e2]
    unfold executeAsExpression
    rw [hmissing _ hnil]
  · show (runAndConvert execFile evalExpr "params"
        (assocSet basePredeclared "params" (.dict []))).1.result = _ ∧
      (runAndConvert execFile evalExpr "params"
        (assocSet basePredeclared "params" (.dict []))).1.error = _
    unfold runAndConvert
    rw [e2]
    unfold executeAsExpression
    rw [hfound _ _ henv]
    exact ⟨rfl, rfl⟩

/-- C10 witness: the contract instantiated with a concrete lookup oracle;
a caller observes an error for nil parameters and an empty mapping for
empty parameters. -/
theorem execute_params_nil_vs_empty_witness :
    (ExecuteWithProxy constExecOracle lookupEvalOracle "params"
        Option.none Option.none).1.error
      = some "Evaluation error: undefined: params" ∧
    (ExecuteWithProxy constExecOracle lookupEvalOracle "params"
        Option.none Option.none).1.result = Option.none ∧
    (ExecuteWithProxy constExecOracle lookupEvalOracle "params"
        (some []) Option.none).1.result = some (.vmap []) ∧
    (ExecuteWithProxy constExecOracle lookupEvalOracle "params"
        (some []) Option.none).1.error = Option.none :=
  execute_params_nil_vs_empty constExecOracle lookupEvalOracle
    (fun _ _ h => by simp [lookupEvalOracle, h])
    (fun _ h => by simp [lookupEvalOracle, h])

mutual

/-- `StarlarkToGoValue` is total: every Starlark value converts (the only
error paths bubble up from recursion, and every base case succeeds — any
unhandled value type falls back to its string rendering). -/
theorem starlarkToGo_total : ∀ v : SValue, ∃ g, StarlarkToGoValue v = .ok g
  | .none => ⟨_, rfl⟩
  | .bool _ => ⟨_, rfl⟩
  | .int n => by
    cases h : fitsInt64 n
    · exact ⟨.vstring (toString n), by simp [StarlarkToGoValue, h]⟩
    · exact ⟨.vint64 n, by simp [StarlarkToGoValue, h]⟩
  | .float _ => ⟨_, rfl⟩
  | .str _ => ⟨_, rfl⟩
  | .list xs => by
    obtain ⟨l, hl⟩ := starlarkListToGo_total xs
    exact ⟨_, by unfold StarlarkToGoValue; rw [hl]⟩
  | .dict entries => by
    obtain ⟨m, hm⟩ := starlarkDictToGo_total [] entries
    exact ⟨_, by unfold StarlarkToGoValue; rw [hm]⟩
  | .other _ => ⟨_, rfl⟩

/-- Elementwise totality of Starlark-list conversion. -/
theorem starlarkListToGo_total : ∀ xs : List SValue,
    ∃ l, starlarkListToGo xs = .ok l
  | [] => ⟨_, rfl⟩
  | x :: xs => by
    obtain ⟨y, hy⟩ := starlarkToGo_total x
    obtain ⟨l, hl⟩ := starlarkListToGo_total xs
    exact ⟨_, by unfold starlarkListToGo; rw [hy, hl]⟩

/-- Entrywise totality of Starlark-dict conversion, for any accumulator. -/
theorem starlarkDictToGo_total : ∀ (acc : List (String × GoValue))
    (entries : List (SValue × SValue)), ∃ m, starlarkDictToGo acc entries = .ok m
  | acc, [] => ⟨acc, rfl⟩
  | acc, (.str s, v) :: rest => by
    obtain ⟨gv, hgv⟩ := starlarkToGo_total v
    obtain ⟨m, hm⟩ := starlarkDictToGo_total (mapInsert acc s gv) rest
    exact ⟨m, by simp only [starlarkDictToGo, hgv]; exact hm⟩
  | acc, (.none, _) :: rest => starlarkDictToGo_total acc rest
  | acc, (.bool _, _) :: rest => starlarkDictToGo_total acc rest
  | acc, (.int _, _) :: rest => starlarkDictToGo_total acc rest
  | acc, (.float _, _) :: rest => starlarkDictToGo_total acc rest
  | acc, (.list _, _) :: rest => starlarkDictToGo_total acc rest
  | acc, (.dict _, _) :: rest => starlarkDictToGo_total acc rest
  | acc, (.other _, _) :: rest => starlarkDictToGo_total acc rest

end

/-- A successfully converted argument map is forwarded (exactly one call is
made, carrying the tool function's server and tool names), whatever the
upstream answer. -/
theorem callInternal_calls_of_ok (t : ToolFunction) (pm : ProxyCallOracle)
    (args : List SValue) (kwargs : List (List SValue))
    (params : List (String × GoValue))
    (h : convertCallArgs args kwargs = .ok params) :
    (t.callInternal pm args kwargs).2 = [⟨t.serverName, t.toolName, params⟩] := by
  unfold ToolFunction.callInternal
  rw [h]
  dsimp only
  cases pm t.serverName t.toolName params <;> rfl

/-- An argument-shape or conversion failure returns the error without
forwarding any call. -/
theorem callInternal_error (t : ToolFunction) (pm : ProxyCallOracle)
    (args : List SValue) (kwargs : List (List SValue)) (e : String)
    (h : convertCallArgs args kwargs = .error e) :
    t.callInternal pm args kwargs = (.error e, []) := by
  unfold ToolFunction.callInternal
  rw [h]

/-- Well-shaped keyword tuples (two parts, string key) always convert. -/
theorem buildKwargParams_ok : ∀ (kwargs : List (List SValue))
    (acc : List (String × GoValue)),
    (∀ kw ∈ kwargs, ∃ k v, kw = [SValue.str k, v]) →
    ∃ m, buildKwargParams acc kwargs = .ok m
  | [], acc, _ => ⟨acc, rfl⟩
  | kw :: rest, acc, h => by
    obtain ⟨k, v, hkv⟩ := h kw (List.mem_cons_self kw rest)
    subst hkv
    obtain ⟨gv, hgv⟩ := starlarkToGo_total v
    obtain ⟨m, hm⟩ := buildKwargParams_ok rest (mapInsert acc k gv)
      (fun kw hkw => h kw (List.mem_cons_of_mem _ hkw))
    exact ⟨m, by simp only [buildKwargParams, hgv]; exact hm⟩

/-- C6: argument shapes of a `CallableCapability`.  Zero arguments forward
an empty map; a single positional dict forwards its converted map; only
keyword arguments forward their merged map; two or more positional
arguments, a positional argument mixed with keywords, or a non-dict
positional argument error without forwarding any call. -/
theorem toolFunction_call_shapes (t : ToolFunction) (pm : ProxyCallOracle) :
    ((t.callInternal pm [] []).2 = [⟨t.serverName, t.toolName, []⟩]) ∧
    (∀ d, ∃ m, StarlarkToGoValue (.dict d) = .ok (.vmap m) ∧
      (t.callInternal pm [.dict d] []).2 = [⟨t.serverName, t.toolName, m⟩]) ∧
    (∀ kwargs : List (List SValue), kwargs ≠ [] →
      (∀ kw ∈ kwargs, ∃ k v, kw = [SValue.str k, v]) →
      ∃ m, buildKwargParams [] kwargs = .ok m ∧
        (t.callInternal pm [] kwargs).2 = [⟨t.serverName, t.toolName, m⟩]) ∧
    (∀ a b rest kwargs, ∃ e,
      t.callInternal pm (a :: b :: rest) kwargs = (.error e, [])) ∧
    (∀ a kw kwrest, ∃ e,
      t.callInternal pm [a] (kw :: kwrest) = (.error e, [])) ∧
    (∀ a, a.isDict = false → ∃ e, t.callInternal pm [a] [] = (.error e, [])) := by
  refine ⟨?_, ?_, ?_, ?_, ?_, ?_⟩
  · exact callInternal_calls_of_ok t pm [] [] [] rfl
  · intro d
    obtain ⟨m, hm⟩ := starlarkDictToGo_total [] d
    have hval : StarlarkToGoValue (.dict d) = .ok (.vmap m) := by
      unfold StarlarkToGoValue; rw [hm]
    refine ⟨m, hval, callInternal_calls_of_ok t pm _ _ _ ?_⟩
    simp only [convertCallArgs, hval]
  · intro kwargs hne hshape
    obtain ⟨m, hm⟩ := buildKwargParams_ok kwargs [] hshape
    rcases kwargs with _ | ⟨kw, rest⟩
    · exact absurd rfl hne
    · exact ⟨m, hm, callInternal_calls_of_ok t pm _ _ _ hm⟩
  · intro a b rest kwargs
    exact ⟨_, callInternal_error t pm _ _ _ rfl⟩
  · intro a kw kwrest
    exact ⟨_, callInternal_error t pm _ _ _ rfl⟩
  · intro a ha
    cases a <;> simp only [SValue.isDict, Bool.true_eq_false] at ha
    all_goals exact ⟨_, callInternal_error t pm _ _ _ rfl⟩

/-- C6 witness: the shapes instantiated at a concrete tool — an empty call,
a keyword call and a non-dict positional call. -/
theorem toolFunction_call_shapes_witness :
    ((c6Tool.callInternal constProxyOracle [] []).2 =
      [⟨"testserver", "echo", []⟩]) ∧
    (∃ m, buildKwargParams [] [[SValue.str "message", SValue.str "hello"]] =
        .ok m ∧
      (c6Tool.callInternal constProxyOracle []
        [[SValue.str "message", SValue.str "hello"]]).2 =
          [⟨"testserver", "echo", m⟩]) ∧
    (∃ e, c6Tool.callInternal constProxyOracle [.str "not a dict"] [] =
      (.error e, [])) :=
  ⟨(toolFunction_call_shapes c6Tool constProxyOracle).1,
   (toolFunction_call_shapes c6Tool constProxyOracle).2.2.1 _
     (by simp)
     (by
       rintro kw hkw
       rw [List.mem_singleton] at hkw
       subst hkw
       exact ⟨"message", SValue.str "hello", rfl⟩),
   (toolFunction_call_shapes c6Tool constProxyOracle).2.2.2.2.2 _ rfl⟩

/-- C1: evaluated on the `github-gohiring` snapshot, `CreateServerNamespaces`
as written in `bridge.go` keys the namespace by the raw server name: no
binding exists at the normalized key `github_gohiring`, the binding lives at
`github-gohiring` instead — contradicting the claimed (and test-asserted)
normalization — while calls through the namespace do forward the original
server name. -/
theorem createServerNamespaces_unnormalized_key :
    assocGet (CreateServerNamespaces c1AllTools) "github_gohiring" =
      Option.none ∧
    (∃ ns, assocGet (CreateServerNamespaces c1AllTools) "github-gohiring" =
        some ns ∧
      ns.serverName = "github-gohiring" ∧
      ∃ tf, ns.attr "get_me" = .ok tf ∧
        ∀ pm : ProxyCallOracle,
          (tf.callInternal pm [.dict []] []).2 =
            [⟨"github-gohiring", "get_me", []⟩]) := by
  refine ⟨rfl, ⟨_, rfl, rfl, ⟨_, rfl, ?_⟩⟩⟩
  intro pm
  exact callInternal_calls_of_ok _ pm _ _ _ rfl

/-- C7: an absent/empty schema accepts every parameter map; a malformed
schema document fails with kind `SchemaError`; a well-formed schema with
non-conforming arguments fails with kind `ValidationError`; conforming
arguments pass; and the two kinds are distinct structured values, not
panics. -/
theorem validateParams_kinds :
    (∀ params, ValidateParams [] params = Option.none) ∧
    ((ValidateParams malformedSchema [("name", .vstring "test")]).map
      VError.type_ = some "SchemaError") ∧
    ((ValidateParams nameSchema []).map VError.type_ =
      some "ValidationError") ∧
    (ValidateParams nameSchema [("name", .vstring "x")] = Option.none) ∧
    ("SchemaError" : String) ≠ "ValidationError" := by
  refine ⟨fun params => rfl, rfl, rfl, rfl, by decide⟩

/-- `copy` of a pointer slice yields the same pointers. -/
theorem copySlice_eq (l : List Nat) : copySlice l = l := by
  induction l with
  | nil => rfl
  | cons a rest ih => simp [copySlice, ih]

/-- Assigning a fresh key into a Go map appends the entry. -/
theorem assocSet_fresh {α : Type} (m : List (String × α)) (k : String)
    (v : α) (h : assocGet m k = Option.none) : assocSet m k v = m ++ [(k, v)] := by
  induction m with
  | nil => rfl
  | cons p rest ih =>
    rcases p with ⟨k', v'⟩
    by_cases hk : k' = k
    · simp [assocGet, hk] at h
    · simp only [assocGet, hk, if_false] at h
      simp [assocSet, hk, ih h]

/-- Assignment at one key leaves lookups at other keys unchanged. -/
theorem assocGet_assocSet_ne {α : Type} (m : List (String × α))
    (s k : String) (v : α) (h : s ≠ k) :
    assocGet (assocSet m s v) k = assocGet m k := by
  induction m with
  | nil => simp [assocSet, assocGet, h]
  | cons p rest ih =>
    rcases p with ⟨k', v'⟩
    by_cases hk : k' = s
    · simp [assocSet, assocGet, hk, h]
    · simp only [assocSet, hk, if_false]
      by_cases hkk : k' = k
      · simp [assocGet, hkk]
      · simp [assocGet, hkk, ih]

/-- The `GetAllTools` loop, under the Go-map invariant that server keys are
distinct: the snapshot holds the same servers, in order, each slice copied
over the same record pointers. -/
theorem getAllToolsLoop_eq : ∀ (m acc : ManagerTools),
    (∀ k ∈ m.map Prod.fst, assocGet acc k = Option.none) →
    (m.map Prod.fst).Nodup →
    getAllToolsLoop acc m = acc ++ m.map (fun st => (st.1, copySlice st.2)) := by
  intro m
  induction m with
  | nil => intro acc _ _; simp [getAllToolsLoop]
  | cons p rest ih =>
    rcases p with ⟨s, ts⟩
    intro acc hfresh hnd
    simp only [List.map_cons, List.nodup_cons] at hnd
    have hs : assocGet acc s = Option.none := hfresh s (by simp)
    show getAllToolsLoop (assocSet acc s (copySlice ts)) rest = _
    rw [ih (assocSet acc s (copySlice ts)) ?_ hnd.2]
    · rw [assocSet_fresh acc s _ hs]
      simp
    · intro k hk
      have hne : s ≠ k := fun hkeq => hnd.1 (hkeq ▸ hk)
      rw [assocGet_assocSet_ne acc s k _ hne]
      exact hfresh k (by simp [hk])

/-- C9 counterexample: on a manager holding one record for server `github`,
the record pointer `0` is reachable from the value `GetAllTools` returns,
and mutating that record through the pointer changes what the manager's own
state dereferences to — the claimed deep copy does not extend to the
`*mcp.Tool` records. -/
theorem getAllTools_record_mutation_visible :
    (0 ∈ reachableAddrs (managerGetAllTools [("github", [0])])) ∧
    managerView [("github", [0])]
        (heapUpdate (fun _ => ⟨"get_me", "original"⟩) 0 ⟨"get_me", "mutated"⟩)
      ≠ managerView [("github", [0])] (fun _ => ⟨"get_me", "original"⟩) := by
  constructor
  · decide
  · intro h
    have := congrArg (fun l => l.map (fun st => st.2.map McpTool.description)) h
    simp [managerView, heapUpdate] at this

/-- C9 amended: `GetAllTools` returns a fresh map of freshly copied slices,
but those slices hold the same `*mcp.Tool` pointers as the manager's
internal state — the returned structure dereferences identically to the
manager's own under every heap, so record mutations are shared both ways. -/
theorem getAllTools_copies_structure_shares_records (m : ManagerTools)
    (hnd : (m.map Prod.fst).Nodup) :
    managerGetAllTools m = m ∧
    ∀ h : ToolHeap, managerView (managerGetAllTools m) h = managerView m h := by
  have heq : managerGetAllTools m = m := by
    unfold managerGetAllTools
    rw [getAllToolsLoop_eq m [] (fun k _ => rfl) hnd]
    simp [copySlice_eq]
  exact ⟨heq, fun h => by rw [heq]⟩

/-- C9 amended witness: the sharing instantiated on the concrete
one-server manager. -/
theorem getAllTools_copies_structure_shares_records_witness :
    managerGetAllTools [("github", [0]), ("slack", [1, 2])] =
      [("github", [0]), ("slack", [1, 2])] :=
  (getAllTools_copies_structure_shares_records
    [("github", [0]), ("slack", [1, 2])] (by decide)).1

/-- The suffix search succeeds exactly when some split of the text lets the
continuation accept the suffix. -/
theorem starLoop_iff (f : List Char → Bool) : ∀ s,
    starLoop f s = true ↔ ∃ pre ss, s = pre ++ ss ∧ f ss = true
  | [] => by
    rw [starLoop]
    constructor
    · intro h
      exact ⟨[], [], rfl, h⟩
    · rintro ⟨pre, ss, hs, hf⟩
      rcases List.append_eq_nil.mp hs.symm with ⟨rfl, rfl⟩
      exact hf
  | c :: cs => by
    rw [starLoop, Bool.or_eq_true, starLoop_iff f cs]
    constructor
    · rintro (h | ⟨pre, ss, hs, hf⟩)
      · exact ⟨[], c :: cs, rfl, h⟩
      · exact ⟨c :: pre, ss, by rw [hs, List.cons_append], hf⟩
    · rintro ⟨pre, ss, hs, hf⟩
      rcases pre with _ | ⟨p0, pre'⟩
      · rw [List.nil_append] at hs
        exact Or.inl (hs ▸ hf)
      · rw [List.cons_append, List.cons.injEq] at hs
        exact Or.inr ⟨pre', ss, hs.2, hf⟩

/-- The matcher accepts only strings in the pattern's glob language. -/
theorem globMatch_sound : ∀ (p s : List Char),
    globMatch p s = true → GlobSem p s
  | [], s, h => by
    have hs : s = [] := List.isEmpty_iff.mp (by rw [globMatch] at h; exact h)
    subst hs
    exact GlobSem.nil
  | p :: ps, s, h => by
    rw [globMatch.eq_def] at h
    dsimp only at h
    by_cases hp : p = '*'
    · subst hp
      rw [if_pos rfl] at h
      obtain ⟨pre, ss, hsplit, hf⟩ := (starLoop_iff _ s).mp h
      subst hsplit
      exact GlobSem.star (globMatch_sound ps ss hf)
    · rw [if_neg hp] at h
      rcases s with _ | ⟨c, cs⟩
      · cases h
      · rw [Bool.and_eq_true] at h
        rcases h with ⟨hc, hrest⟩
        obtain rfl : p = c := of_decide_eq_true hc
        exact GlobSem.lit hp (globMatch_sound ps cs hrest)

/-- The matcher accepts every string in the pattern's glob language. -/
theorem globMatch_complete {p s : List Char} (h : GlobSem p s) :
    globMatch p s = true := by
  induction h with
  | nil => rfl
  | lit hne _ ih =>
    rw [globMatch.eq_def]
    dsimp only
    rw [if_neg hne]
    simp [ih]
  | star _ ih =>
    rename_i ps pre ss _
    rw [globMatch.eq_def]
    dsimp only
    rw [if_pos rfl]
    exact (starLoop_iff _ _).mpr ⟨pre, ss, rfl, ih⟩

/-- A pattern without `*` matches exactly itself. -/
theorem globMatch_no_star : ∀ (p s : List Char), '*' ∉ p →
    (globMatch p s = true ↔ p = s)
  | [], s, _ => by
    rw [globMatch, List.isEmpty_iff]
    exact ⟨fun h => h.symm, fun h => h.symm⟩
  | c :: ps, s, hns => by
    have hc : c ≠ '*' := fun h => hns (h ▸ List.mem_cons_self c ps)
    rw [globMatch.eq_def]
    dsimp only
    rw [if_neg hc]
    rcases s with _ | ⟨c', cs⟩
    · simp
    · rw [Bool.and_eq_true, decide_eq_true_iff,
        globMatch_no_star ps cs (fun h => hns (List.mem_cons_of_mem _ h))]
      constructor
      · rintro ⟨rfl, rfl⟩; rfl
      · rintro h; cases h; exact ⟨rfl, rfl⟩

/-- Membership in one server's registered list. -/
theorem mem_registerServerTools (s : String) (sc : MCPServerConfig) :
    ∀ (tools : List McpTool) (x : String),
    x ∈ registerServerTools s sc tools ↔
      ∃ tool ∈ tools, sc.shouldIncludeTool tool.name = true ∧
        x = s ++ "__" ++ tool.name
  | [], x => by simp [registerServerTools]
  | tool :: rest, x => by
    rw [registerServerTools]
    by_cases hinc : sc.shouldIncludeTool tool.name = true
    · rw [if_pos hinc]
      simp only [List.mem_cons, mem_registerServerTools s sc rest x]
      constructor
      · rintro (rfl | ⟨t, ht, hi, hx⟩)
        · exact ⟨tool, Or.inl rfl, hinc, rfl⟩
        · exact ⟨t, Or.inr ht, hi, hx⟩
      · rintro ⟨t, rfl | ht, hi, hx⟩
        · exact Or.inl hx
        · exact Or.inr ⟨t, ht, hi, hx⟩
    · rw [if_neg hinc]
      rw [mem_registerServerTools s sc rest x]
      simp only [List.mem_cons]
      constructor
      · rintro ⟨t, ht, hi, hx⟩
        exact ⟨t, Or.inr ht, hi, hx⟩
      · rintro ⟨t, rfl | ht, hi, hx⟩
        · exact absurd hi hinc
        · exact ⟨t, ht, hi, hx⟩

/-- Membership in the full registered list: exactly the admitted
capabilities of visible, configured servers. -/
theorem mem_registerProxiedLoop (cfg : List (String × MCPServerConfig)) :
    ∀ (allTools : List (String × List McpTool)) (x : String),
    x ∈ registerProxiedLoop cfg allTools ↔
      ∃ serverName tools, (serverName, tools) ∈ allTools ∧
        ∃ sc, assocGet cfg serverName = some sc ∧ sc.hidden = false ∧
          ∃ tool ∈ tools, sc.shouldIncludeTool tool.name = true ∧
            x = serverName ++ "__" ++ tool.name
  | [], x => by simp [registerProxiedLoop]
  | (serverName, tools) :: rest, x => by
    rw [registerProxiedLoop, List.mem_append,
      mem_registerProxiedLoop cfg rest x]
    constructor
    · rintro (hhead | ⟨sn, ts, hmem, hrest⟩)
      · rcases hcfg : assocGet cfg serverName with _ | sc
        · rw [hcfg] at hhead
          cases hhead
        · rw [hcfg] at hhead
          dsimp only at hhead
          by_cases hh : sc.hidden = true
          · rw [if_pos hh] at hhead
            cases hhead
          · rw [if_neg hh] at hhead
            rcases (mem_registerServerTools serverName sc tools x).mp hhead
              with ⟨t, ht, hi, hx⟩
            exact ⟨serverName, tools, List.mem_cons_self _ _, sc, hcfg,
              by simpa using hh, t, ht, hi, hx⟩
      · exact ⟨sn, ts, List.mem_cons_of_mem _ hmem, hrest⟩
    · rintro ⟨sn, ts, hmem, sc, hcfg, hh, t, ht, hi, hx⟩
      rcases List.mem_cons.mp hmem with heq | hmem'
      · obtain ⟨rfl, rfl⟩ := Prod.mk.injEq .. |>.mp heq
        left
        rw [hcfg]
        dsimp only
        rw [if_neg (by simp [hh])]
        exact (mem_registerServerTools _ sc _ _).mpr ⟨t, ht, hi, hx⟩
      · exact Or.inr ⟨sn, ts, hmem', sc, hcfg, hh, t, ht, hi, hx⟩

/-- C8: a server declares an allow-list or a deny-list but never both; a
pattern without `*` matches only itself, a pattern with `*` matches with
`*` standing for any character sequence, anchored at both ends;
`RegisterProxiedTools` registers exactly the admitted capabilities of
visible, configured servers, and the documented examples filter as
claimed. -/
theorem registerProxiedTools_filtering :
    (∀ (c : MCPServerConfig) a h, c.allowedTools = some a →
      c.hiddenTools = some h → c.filterListsValid = false) ∧
    (∀ (p s : String), '*' ∉ p.data →
      (matchesPattern p s = true ↔ p.data = s.data)) ∧
    (∀ (p s : String), matchesPattern p s = true ↔ GlobSem p.data s.data) ∧
    (∀ cfg allTools x, x ∈ RegisterProxiedTools false cfg allTools ↔
      ∃ serverName tools, (serverName, tools) ∈ allTools ∧
        ∃ sc, assocGet cfg serverName = some sc ∧ sc.hidden = false ∧
          ∃ tool ∈ tools, sc.shouldIncludeTool tool.name = true ∧
            x = serverName ++ "__" ++ tool.name) ∧
    (∀ cfg allTools, RegisterProxiedTools true cfg allTools = []) ∧
    (allowCfg.shouldIncludeTool "create_issue" = true ∧
     allowCfg.shouldIncludeTool "list_repos" = false ∧
     denyCfg.shouldIncludeTool "admin_delete" = false ∧
     denyCfg.shouldIncludeTool "list_repos" = true) := by
  refine ⟨?_, ?_, ?_, ?_, fun cfg allTools => rfl, by decide⟩
  · intro c a h ha hh
    simp [MCPServerConfig.filterListsValid, ha, hh]
  · intro p s hns
    exact globMatch_no_star p.data s.data hns
  · intro p s
    exact ⟨globMatch_sound p.data s.data, globMatch_complete⟩
  · intro cfg allTools x
    exact mem_registerProxiedLoop cfg allTools x

/-- C8 witness: the characterizations instantiated — the literal pattern
`get_me` matches only itself, `create_*` admits `create_issue` under the
glob semantics, and a one-server snapshot registers exactly the admitted
prefixed name. -/
theorem registerProxiedTools_filtering_witness :
    (matchesPattern "get_me" "get_me" = true ↔
      ("get_me" : String).data = ("get_me" : String).data) ∧
    ("github" ++ "__" ++ "create_issue") ∈
      RegisterProxiedTools false [("github", allowCfg)]
        [("github", [⟨"create_issue", "d"⟩, ⟨"list_repos", "d"⟩])] :=
  ⟨(registerProxiedTools_filtering).2.1 "get_me" "get_me" (by decide),
   ((registerProxiedTools_filtering).2.2.2.1 [("github", allowCfg)]
       [("github", [⟨"create_issue", "d"⟩, ⟨"list_repos", "d"⟩])] _).mpr
     ⟨"github", [⟨"create_issue", "d"⟩, ⟨"list_repos", "d"⟩], by simp,
      allowCfg, rfl, rfl, ⟨"create_issue", "d"⟩, by simp, by decide, rfl⟩⟩

/-- Starlark equality on string keys is string equality. -/
theorem beq_str (a b : String) : SValue.beq (.str a) (.str b) = (a == b) := by
  rw [SValue.beq]

/-- `SetKey` with a key equal to no existing key appends the entry. -/
theorem dictSetKey_fresh : ∀ (d : List (SValue × SValue)) (k v : SValue),
    (∀ p ∈ d, SValue.beq p.1 k = false) →
    dictSetKey d k v = d ++ [(k, v)]
  | [], k, v, _ => rfl
  | (k', v') :: rest, k, v, h => by
    rw [dictSetKey]
    rw [h (k', v') (List.mem_cons_self _ _)]
    simp only [Bool.false_eq_true, if_false, List.cons_append]
    rw [dictSetKey_fresh rest k v
      (fun p hp => h p (List.mem_cons_of_mem _ hp))]

/-- The filter loop of `filterUserGlobals`, under the Go-map invariant of
distinct global names: it appends exactly the globals that are neither
predeclared nor built-in, in order. -/
theorem filterUserGlobalsLoop_eq (predeclared : List (String × SValue)) :
    ∀ (gs acc : List (String × SValue)),
    (∀ k ∈ gs.map Prod.fst, assocGet acc k = Option.none) →
    (gs.map Prod.fst).Nodup →
    filterUserGlobalsLoop predeclared acc gs =
      acc ++ gs.filter
        (fun nv => !(assocGet predeclared nv.1).isSome && !isBuiltinName nv.1)
  | [], acc, _, _ => by simp [filterUserGlobalsLoop]
  | (n, v) :: rest, acc, hfresh, hnd => by
    simp only [List.map_cons, List.nodup_cons] at hnd
    rw [filterUserGlobalsLoop]
    by_cases hpre : (assocGet predeclared n).isSome
    · rw [if_pos hpre]
      rw [filterUserGlobalsLoop_eq predeclared rest acc
        (fun k hk => hfresh k (by simp [hk])) hnd.2]
      congr 1
      rw [List.filter_cons]
      simp [hpre]
    · rw [if_neg hpre]
      by_cases hbi : isBuiltinName n
      · rw [if_pos hbi]
        rw [filterUserGlobalsLoop_eq predeclared rest acc
          (fun k hk => hfresh k (by simp [hk])) hnd.2]
        congr 1
        rw [List.filter_cons]
        simp [hbi]
      · rw [if_neg hbi]
        have hacc : assocGet acc n = Option.none := hfresh n (by simp)
        rw [filterUserGlobalsLoop_eq predeclared rest (assocSet acc n v)
          ?_ hnd.2]
        · rw [assocSet_fresh acc n v hacc, List.filter_cons]
          simp only [hpre, hbi, Bool.not_false, Bool.and_self, if_true]
          simp
        · intro k hk
          have hne : n ≠ k := fun hkeq => hnd.1 (hkeq ▸ hk)
          rw [assocGet_assocSet_ne acc n k v hne]
          exact hfresh k (by simp [hk])

/-- The dict-building loop over globals with distinct names: entries are
appended in order with their names as Starlark string keys. -/
theorem globalsToDict_eq : ∀ (gs : List (String × SValue))
    (acc : List (SValue × SValue)),
    (∀ p ∈ acc, ∀ n ∈ gs.map Prod.fst, SValue.beq p.1 (.str n) = false) →
    (gs.map Prod.fst).Nodup →
    globalsToDict acc gs = acc ++ gs.map (fun kv => (SValue.str kv.1, kv.2))
  | [], acc, _, _ => by simp [globalsToDict]
  | (n, v) :: rest, acc, hfresh, hnd => by
    simp only [List.map_cons, List.nodup_cons] at hnd
    rw [globalsToDict]
    rw [dictSetKey_fresh acc (.str n) v
      (fun p hp => hfresh p hp n (by simp))]
    rw [globalsToDict_eq rest (acc ++ [(SValue.str n, v)]) ?_ hnd.2]
    · simp
    · intro p hp k hk
      rcases List.mem_append.mp hp with hp' | hp'
      · exact hfresh p hp' k (by simp [hk])
      · rw [List.mem_singleton] at hp'
        subst hp'
        rw [beq_str]
        exact decide_eq_false (fun hkeq => hnd.1 (hkeq ▸ hk))

/-- C2: for a program body that executes to module globals: a global named
`result` is the execution result; otherwise the result is the mapping of
exactly the user-introduced globals — those neither bound in the initial
predeclared scope (including `params`) nor in the built-in exclusion
list — and when no such global remains, the result is Starlark `None`. -/
theorem executeAsProgram_results (execFile : ExecOracle) (code : String)
    (predeclared modGlobals : List (String × SValue))
    (hexec : execFile code predeclared = .ok modGlobals)
    (hnd : (modGlobals.map Prod.fst).Nodup) :
    (∀ v, assocGet modGlobals "result" = some v →
      executeAsProgram execFile code predeclared = .ok v) ∧
    (assocGet modGlobals "result" = Option.none →
      (modGlobals.filter
          (fun nv => !(assocGet predeclared nv.1).isSome &&
            !isBuiltinName nv.1) = [] →
        executeAsProgram execFile code predeclared = .ok .none) ∧
      (modGlobals.filter
          (fun nv => !(assocGet predeclared nv.1).isSome &&
            !isBuiltinName nv.1) ≠ [] →
        executeAsProgram execFile code predeclared =
          .ok (.dict ((modGlobals.filter
            (fun nv => !(assocGet predeclared nv.1).isSome &&
              !isBuiltinName nv.1)).map
            (fun kv => (SValue.str kv.1, kv.2)))))) ∧
    (∀ k v, (k, v) ∈ modGlobals.filter
        (fun nv => !(assocGet predeclared nv.1).isSome &&
          !isBuiltinName nv.1) ↔
      ((k, v) ∈ modGlobals ∧ assocGet predeclared k = Option.none ∧
        isBuiltinName k = false)) := by
  have hfilter : filterUserGlobals modGlobals predeclared =
      modGlobals.filter
        (fun nv => !(assocGet predeclared nv.1).isSome && !isBuiltinName nv.1) := by
    unfold filterUserGlobals
    exact filterUserGlobalsLoop_eq predeclared modGlobals []
      (fun k _ => rfl) hnd
  have hndf : ((modGlobals.filter
      (fun nv => !(assocGet predeclared nv.1).isSome &&
        !isBuiltinName nv.1)).map Prod.fst).Nodup :=
    hnd.sublist (List.Sublist.map Prod.fst (List.filter_sublist modGlobals))
  refine ⟨?_, ?_, ?_⟩
  · intro v hres
    unfold executeAsProgram
    rw [hexec]
    dsimp only
    rw [hres]
  · intro hres
    constructor
    · intro hempty
      unfold executeAsProgram
      rw [hexec]
      dsimp only
      rw [hres]
      dsimp only
      unfold extractResultFromGlobals
      rw [hfilter, hempty]
      rfl
    · intro hne
      unfold executeAsProgram
      rw [hexec]
      dsimp only
      rw [hres]
      dsimp only
      unfold extractResultFromGlobals
      rw [hfilter]
      rw [if_neg (fun hlen => hne (List.length_eq_zero.mp hlen))]
      rw [globalsToDict_eq _ [] (fun p hp => absurd hp (List.not_mem_nil p))
        hndf]
      rw [List.nil_append]
  · intro k v
    rw [List.mem_filter]
    constructor
    · rintro ⟨hmem, hcond⟩
      dsimp only at hcond
      rw [Bool.and_eq_true] at hcond
      refine ⟨hmem, ?_, by simpa using hcond.2⟩
      rcases ho : assocGet predeclared k with _ | w
      · rfl
      · rw [ho] at hcond
        simp at hcond
    · rintro ⟨hmem, hpre, hbi⟩
      refine ⟨hmem, ?_⟩
      dsimp only
      rw [Bool.and_eq_true, hpre, hbi]
      exact ⟨rfl, rfl⟩

/-- C2 witness: the two-assignment body with `params` supplied evaluates to
the mapping of exactly `x` and `y` — `params` is excluded. -/
theorem executeAsProgram_results_witness :
    executeAsProgram c2Exec "x = 1\ny = 2" [("params", SValue.dict [])] =
      .ok (.dict [(.str "x", .int 1), (.str "y", .int 2)]) := by
  have hfe : List.filter
      (fun nv : String × SValue =>
        !(assocGet [("params", SValue.dict [])] nv.1).isSome &&
          !isBuiltinName nv.1)
      [("x", SValue.int 1), ("y", SValue.int 2)] =
      [("x", SValue.int 1), ("y", SValue.int 2)] := rfl
  have h := (executeAsProgram_results c2Exec "x = 1\ny = 2"
    [("params", SValue.dict [])] [("x", .int 1), ("y", .int 2)] rfl
    (by decide)).2.1 rfl
  have h2 := h.2 (by rw [hfe]; exact List.cons_ne_nil _ _)
  rw [hfe] at h2
  exact h2

/-- Back-conversion of a list whose elements all convert back. -/
theorem starlarkListToGo_spec : ∀ {xs : List GoValue} {ys : List SValue},
    List.Forall₂ BackOk xs ys →
    ∃ xs', starlarkListToGo ys = .ok xs' ∧
      List.Forall₂ (fun a b => equalValues a b = true) xs xs' := by
  intro xs ys h
  induction h with
  | nil => exact ⟨[], rfl, List.Forall₂.nil⟩
  | cons hab htail ih =>
    obtain ⟨v', hv', heq⟩ := hab
    obtain ⟨xs', hxs', hforall⟩ := ih
    exact ⟨v' :: xs', by simp only [starlarkListToGo, hv', hxs'],
      List.Forall₂.cons heq hforall⟩

/-- Back-conversion of a dict whose keys are the (distinct) original names
as Starlark strings and whose values all convert back: the resulting map
appends those names with the back-converted values, in order. -/
theorem starlarkDictToGo_spec :
    ∀ {entries : List (String × GoValue)} {d : List (SValue × SValue)},
    List.Forall₂ (fun kv p => p.1 = SValue.str kv.1 ∧ BackOk kv.2 p.2)
      entries d →
    ∀ accGo : List (String × GoValue),
    (∀ k ∈ entries.map Prod.fst, assocGet accGo k = Option.none) →
    (entries.map Prod.fst).Nodup →
    ∃ tail, starlarkDictToGo accGo d = .ok (accGo ++ tail) ∧
      List.Forall₂ (fun kv kv' => kv'.1 = kv.1 ∧ equalValues kv.2 kv'.2 = true)
        entries tail := by
  intro entries d h
  induction h with
  | nil => exact fun accGo _ _ => ⟨[], by simp [starlarkDictToGo], .nil⟩
  | cons hab htail ih =>
    rename_i kv p rest drest
    intro accGo hfresh hnd
    obtain ⟨hkey, hback⟩ := hab
    obtain ⟨v', hv', heq⟩ := hback
    rcases kv with ⟨k, v⟩
    rcases p with ⟨pk, pv⟩
    dsimp only at hkey hv' heq
    subst hkey
    simp only [List.map_cons, List.nodup_cons] at hnd
    have hacck : assocGet accGo k = Option.none := hfresh k (by simp)
    have hfresh2 : ∀ k2 ∈ rest.map Prod.fst,
        assocGet (mapInsert accGo k v') k2 = Option.none := by
      intro k2 hk2
      have hne : k ≠ k2 := fun hkeq => hnd.1 (hkeq ▸ hk2)
      rw [mapInsert, assocGet_assocSet_ne accGo k k2 v' hne]
      exact hfresh k2 (by simp [hk2])
    obtain ⟨tail, htail', hforall⟩ := ih (mapInsert accGo k v') hfresh2 hnd.2
    refine ⟨(k, v') :: tail, ?_, .cons ⟨rfl, heq⟩ hforall⟩
    simp only [starlarkDictToGo, hv']
    rw [htail', mapInsert, assocSet_fresh accGo k v' hacck]
    simp

/-- Pointwise equal lists are `equalValuesList`-equal. -/
theorem equalValuesList_of_forall₂ {xs xs' : List GoValue}
    (h : List.Forall₂ (fun a b => equalValues a b = true) xs xs') :
    equalValuesList xs xs' = true := by
  induction h with
  | nil => rfl
  | cons hab _ ih => simp only [equalValuesList, hab, ih, Bool.and_self]

/-- A map entry whose key occurs in none of the compared entries does not
affect the per-key comparison. -/
theorem equalValuesMap_cons_ne (k : String) (v' : GoValue)
    (bm : List (String × GoValue)) :
    ∀ am, (∀ k2 ∈ am.map Prod.fst, k2 ≠ k) →
    equalValuesMap ((k, v') :: bm) am = equalValuesMap bm am
  | [], _ => rfl
  | (k2, v2) :: rest, h => by
    simp only [equalValuesMap]
    rw [show assocGet ((k, v') :: bm) k2 = assocGet bm k2 from
      if_neg (fun hkk => h k2 (by simp) hkk.symm)]
    rw [equalValuesMap_cons_ne k v' bm rest (fun x hx => h x (by simp [hx]))]

/-- Maps with the same distinct keys in order and pointwise equal values
are `equalValuesMap`-equal. -/
theorem equalValuesMap_of_forall₂ :
    ∀ {entries entries' : List (String × GoValue)},
    List.Forall₂ (fun kv kv' => kv'.1 = kv.1 ∧ equalValues kv.2 kv'.2 = true)
      entries entries' →
    (entries.map Prod.fst).Nodup →
    equalValuesMap entries' entries = true := by
  intro entries entries' h
  induction h with
  | nil => exact fun _ => rfl
  | cons hab htail ih =>
    rename_i kv kv' rest rest'
    intro hnd
    rcases kv with ⟨k, v⟩
    rcases kv' with ⟨k1, v1⟩
    obtain ⟨hk1, heq⟩ := hab
    dsimp only at hk1 heq
    subst hk1
    simp only [List.map_cons, List.nodup_cons] at hnd
    simp only [equalValuesMap]
    rw [Bool.and_eq_true]
    constructor
    · rw [show assocGet ((k1, v1) :: rest') k1 = some v1 from if_pos rfl]
      simpa using heq
    · rw [equalValuesMap_cons_ne k1 v1 rest' rest
        (fun k2 hk2 hkk => hnd.1 (hkk ▸ hk2))]
      exact ih hnd.2

mutual

/-- Every supported host value converts to the sandbox and back to a value
test-equal to the original. -/
theorem roundtripValue : ∀ v : GoValue, SupportedValue v = true →
    ∃ sv, GoToStarlarkValue v = .ok sv ∧ BackOk v sv
  | .vnil, _ => ⟨.none, rfl, .vnil, rfl, rfl⟩
  | .vbool b, _ => ⟨.bool b, rfl, .vbool b, rfl, by simp [equalValues, goPrimEq]⟩
  | .vint n, h => by
    have hfit : fitsInt64 n = true := by simpa [SupportedValue] using h
    exact ⟨.int n, rfl, .vint64 n, by simp [StarlarkToGoValue, hfit],
      by simp [equalValues]⟩
  | .vint64 n, h => by
    have hfit : fitsInt64 n = true := by simpa [SupportedValue] using h
    exact ⟨.int n, rfl, .vint64 n, by simp [StarlarkToGoValue, hfit],
      by simp [equalValues, goPrimEq]⟩
  | .vfloat f, _ => ⟨.float f, rfl, .vfloat f, rfl, by simp [equalValues, goPrimEq]⟩
  | .vstring s, _ => ⟨.str s, rfl, .vstring s, rfl, by simp [equalValues, goPrimEq]⟩
  | .vslice xs, h => by
    have hs : SupportedSlice xs = true := by simpa [SupportedValue] using h
    obtain ⟨ys, hys, hforall⟩ := roundtripSlice xs hs
    obtain ⟨xs', hxs', hfa2⟩ := starlarkListToGo_spec hforall
    refine ⟨.list ys, by simp only [GoToStarlarkValue, hys], .vslice xs',
      by simp only [StarlarkToGoValue, hxs'], ?_⟩
    simp only [equalValues]
    rw [Bool.and_eq_true]
    exact ⟨by simp [hfa2.length_eq], equalValuesList_of_forall₂ hfa2⟩
  | .vmap m, h => by
    rw [SupportedValue, Bool.and_eq_true, decide_eq_true_iff] at h
    obtain ⟨hnd, hse⟩ := h
    obtain ⟨tail, htail, hforall⟩ :=
      roundtripEntries m [] hse hnd (fun k _ p hp => absurd hp (List.not_mem_nil p))
    obtain ⟨tail', htail', hfa2⟩ := starlarkDictToGo_spec hforall []
      (fun k _ => rfl) hnd
    refine ⟨.dict tail, ?_, .vmap tail', ?_, ?_⟩
    · rw [GoToStarlarkValue]
      rw [show goMapToStarlark [] m = .ok ([] ++ tail) from htail]
      rfl
    · rw [StarlarkToGoValue]
      rw [show starlarkDictToGo [] tail = .ok ([] ++ tail') from htail']
      rfl
    · simp only [equalValues]
      rw [Bool.and_eq_true]
      exact ⟨by simp [hfa2.length_eq], equalValuesMap_of_forall₂ hfa2 hnd⟩

/-- Elementwise round trip of a supported slice. -/
theorem roundtripSlice : ∀ xs : List GoValue, SupportedSlice xs = true →
    ∃ ys, goListToStarlark xs = .ok ys ∧ List.Forall₂ BackOk xs ys
  | [], _ => ⟨[], rfl, .nil⟩
  | x :: xs, h => by
    rw [SupportedSlice, Bool.and_eq_true] at h
    obtain ⟨sv, hsv, hback⟩ := roundtripValue x h.1
    obtain ⟨ys, hys, hforall⟩ := roundtripSlice xs h.2
    exact ⟨sv :: ys, by simp only [goListToStarlark, hsv, hys],
      .cons hback hforall⟩

/-- Entrywise round trip of supported map entries with distinct keys: the
`SetKey` fold appends one dict entry per map entry, keyed by the name as a
Starlark string, each value converting back. -/
theorem roundtripEntries : ∀ (entries : List (String × GoValue))
    (acc : List (SValue × SValue)), SupportedEntries entries = true →
    (entries.map Prod.fst).Nodup →
    (∀ k ∈ entries.map Prod.fst, ∀ p ∈ acc, SValue.beq p.1 (.str k) = false) →
    ∃ tail, goMapToStarlark acc entries = .ok (acc ++ tail) ∧
      List.Forall₂ (fun kv p => p.1 = SValue.str kv.1 ∧ BackOk kv.2 p.2)
        entries tail
  | [], acc, _, _, _ => ⟨[], by simp [goMapToStarlark], .nil⟩
  | (k, v) :: rest, acc, h, hnd, hfresh => by
    rw [SupportedEntries, Bool.and_eq_true] at h
    simp only [List.map_cons, List.nodup_cons] at hnd
    obtain ⟨sv, hsv, hback⟩ := roundtripValue v h.1
    have hsetkey : dictSetKey acc (.str k) sv = acc ++ [(.str k, sv)] :=
      dictSetKey_fresh acc (.str k) sv (fun p hp => hfresh k (by simp) p hp)
    have hfresh2 : ∀ k2 ∈ rest.map Prod.fst, ∀ p ∈ acc ++ [(SValue.str k, sv)],
        SValue.beq p.1 (.str k2) = false := by
      intro k2 hk2 p hp
      rcases List.mem_append.mp hp with hp' | hp'
      · exact hfresh k2 (by simp [hk2]) p hp'
      · rw [List.mem_singleton] at hp'
        subst hp'
        rw [beq_str]
        exact decide_eq_false (fun hkeq => hnd.1 (hkeq ▸ hk2))
    obtain ⟨tail, htail, hforall⟩ :=
      roundtripEntries rest (acc ++ [(.str k, sv)]) h.2 hnd.2 hfresh2
    refine ⟨(.str k, sv) :: tail, ?_, .cons ⟨rfl, hback⟩ hforall⟩
    simp only [goMapToStarlark, hsv, hsetkey]
    rw [htail]
    simp

end

/-- C4: every supported host value — nil, bool, int, int64, float64,
string, slice, string-keyed map (with Go's typing invariants: 64-bit
integers, distinct map keys) — survives `GoToStarlarkValue` then
`StarlarkToGoValue` up to the test's `equalValues` (integers come back as
`int64`); sandbox integers outside the signed 64-bit range come back as
their decimal string; non-string dict keys are silently dropped, never an
error — indeed `StarlarkToGoValue` is total. -/
theorem roundtrip_conversion :
    (∀ v, SupportedValue v = true →
      ∃ sv v', GoToStarlarkValue v = .ok sv ∧ StarlarkToGoValue sv = .ok v' ∧
        equalValues v v' = true) ∧
    (∀ n : Int, fitsInt64 n = false →
      StarlarkToGoValue (.int n) = .ok (.vstring (toString n))) ∧
    (∀ (k v : SValue) (entries : List (SValue × SValue))
        (acc : List (String × GoValue)), k.isStr = false →
      starlarkDictToGo acc ((k, v) :: entries) = starlarkDictToGo acc entries) ∧
    (∀ sv : SValue, ∃ g, StarlarkToGoValue sv = .ok g) := by
  refine ⟨?_, ?_, ?_, starlarkToGo_total⟩
  · intro v hv
    obtain ⟨sv, hsv, v', hv', heq⟩ := roundtripValue v hv
    exact ⟨sv, v', hsv, hv', heq⟩
  · intro n hn
    simp [StarlarkToGoValue, hn]
  · intro k v entries acc hk
    cases k <;> first
      | rfl
      | (exfalso; simp [SValue.isStr] at hk)

/-- C4 witness: the round trip applied to a concrete nested map, and the
documented large-integer fallback at `2^64 - 1`. -/
theorem roundtrip_conversion_witness :
    SupportedValue (.vmap [("key", .vstring "value"), ("num", .vint 42)])
      = true ∧
    (∃ sv v',
      GoToStarlarkValue (.vmap [("key", .vstring "value"), ("num", .vint 42)])
        = .ok sv ∧
      StarlarkToGoValue sv = .ok v' ∧
      equalValues (.vmap [("key", .vstring "value"), ("num", .vint 42)]) v'
        = true) ∧
    StarlarkToGoValue (.int 18446744073709551615) =
      .ok (.vstring (toString (18446744073709551615 : Int))) :=
  ⟨by decide, roundtrip_conversion.1 _ (by decide),
   roundtrip_conversion.2.1 18446744073709551615 (by decide)⟩

end Metatool
